import Mathlib

/-!
Verification of the machineutil repository: a shallow embedding of its
unit-file reconciler (`util` package), template catalog, machined client
and machine lifecycle helpers, with theorems checking the specification's
claims against these definitions.
-/

namespace Machineutil

open List

/-! ## Unit options and their total order (util package) -/

/-- One systemd unit option, a (section, key, value) triple.
Mirrors go-systemd's `unit.UnitOption` (fields Section, Name, Value). -/
structure UnitOption where
  Section : String
  Name : String
  Value : String
deriving DecidableEq, Repr

/-- Go's `cmp.Compare`: -1 when `x < y`, +1 when `x > y`, 0 otherwise. -/
def cmpCompare {α : Type} [LinearOrder α] (x y : α) : Int :=
  if x < y then -1 else if x > y then 1 else 0

/-- `CompareOptions` from the util package: compare two unit options by
Section, then Name, then Value, each with `cmp.Compare`. -/
def CompareOptions (a b : UnitOption) : Int :=
  let c := cmpCompare a.Section b.Section
  if c ≠ 0 then c
  else
    let c2 := cmpCompare a.Name b.Name
    if c2 ≠ 0 then c2
    else cmpCompare a.Value b.Value

/-- The (Section, Name, Value) triple of an option, in the lexicographic
order; used to give `UnitOption` the total order `CompareOptions` encodes. -/
def UnitOption.toLex3 (o : UnitOption) : String ×ₗ String ×ₗ String :=
  toLex (o.Section, toLex (o.Name, o.Value))

theorem UnitOption.toLex3_injective : Function.Injective UnitOption.toLex3 := by
  intro a b h
  cases a
  cases b
  simp only [UnitOption.toLex3] at h
  have h2 := toLex.injective h
  simp only [Prod.mk.injEq] at h2
  obtain ⟨h3, h4⟩ := h2
  have h5 := toLex.injective h4
  simp only [Prod.mk.injEq] at h5
  simp [h3, h5.1, h5.2]

instance : LinearOrder UnitOption :=
  LinearOrder.lift' UnitOption.toLex3 UnitOption.toLex3_injective

theorem UnitOption.lt_def {a b : UnitOption} : a < b ↔ a.toLex3 < b.toLex3 :=
  Iff.rfl

theorem UnitOption.lt_iff {a b : UnitOption} :
    a < b ↔ a.Section < b.Section ∨
      (a.Section = b.Section ∧
        (a.Name < b.Name ∨ (a.Name = b.Name ∧ a.Value < b.Value))) := by
  rw [UnitOption.lt_def]
  unfold UnitOption.toLex3
  rw [Prod.Lex.lt_iff]
  simp only [Prod.Lex.lt_iff]

section CmpCompare

variable {α : Type} [LinearOrder α]

theorem cmpCompare_of_lt {x y : α} (h : x < y) : cmpCompare x y = -1 := by
  unfold cmpCompare
  rw [if_pos h]

theorem cmpCompare_of_gt {x y : α} (h : y < x) : cmpCompare x y = 1 := by
  unfold cmpCompare
  rw [if_neg (asymm h), if_pos h]

theorem cmpCompare_of_eq {x y : α} (h : x = y) : cmpCompare x y = 0 := by
  subst h
  unfold cmpCompare
  rw [if_neg (lt_irrefl x), if_neg (lt_irrefl x)]

theorem cmpCompare_self (x : α) : cmpCompare x x = 0 :=
  cmpCompare_of_eq rfl

theorem cmpCompare_lt_iff {x y : α} : cmpCompare x y < 0 ↔ x < y := by
  rcases lt_trichotomy x y with h | h | h
  · rw [cmpCompare_of_lt h]
    constructor
    · intro _
      exact h
    · intro _
      norm_num
  · rw [cmpCompare_of_eq h]
    constructor
    · intro hc
      norm_num at hc
    · intro hl
      exact absurd h (ne_of_lt hl)
  · rw [cmpCompare_of_gt h]
    constructor
    · intro hc
      norm_num at hc
    · intro hl
      exact absurd hl (asymm h)

theorem cmpCompare_eq_zero_iff {x y : α} : cmpCompare x y = 0 ↔ x = y := by
  rcases lt_trichotomy x y with h | h | h
  · rw [cmpCompare_of_lt h]
    constructor
    · intro hc
      norm_num at hc
    · intro he
      exact absurd he (ne_of_lt h)
  · rw [cmpCompare_of_eq h]
    simp [h]
  · rw [cmpCompare_of_gt h]
    constructor
    · intro hc
      norm_num at hc
    · intro he
      exact absurd he.symm (ne_of_lt h)

theorem cmpCompare_pos_iff {x y : α} : 0 < cmpCompare x y ↔ y < x := by
  rcases lt_trichotomy x y with h | h | h
  · rw [cmpCompare_of_lt h]
    constructor
    · intro hc
      norm_num at hc
    · intro hl
      exact absurd hl (asymm h)
  · rw [cmpCompare_of_eq h]
    constructor
    · intro hc
      norm_num at hc
    · intro hl
      exact absurd h.symm (ne_of_lt hl)
  · rw [cmpCompare_of_gt h]
    constructor
    · intro _
      exact h
    · intro _
      norm_num

end CmpCompare

/-- `CompareOptions` is exactly `cmp.Compare` in the lexicographic
(Section, Name, Value) order on `UnitOption`. -/
theorem compareOptions_eq_cmpCompare (a b : UnitOption) :
    CompareOptions a b = cmpCompare a b := by
  show (let c := cmpCompare a.Section b.Section
        if c ≠ 0 then c
        else
          let c2 := cmpCompare a.Name b.Name
          if c2 ≠ 0 then c2
          else cmpCompare a.Value b.Value) = cmpCompare a b
  rcases lt_trichotomy a.Section b.Section with h1 | h1 | h1
  · have hab : a < b := UnitOption.lt_iff.mpr (Or.inl h1)
    rw [cmpCompare_of_lt h1, cmpCompare_of_lt hab]
    norm_num
  · rw [cmpCompare_of_eq h1]
    simp only [ne_eq, not_true_eq_false, if_false, not_false_eq_true]
    rcases lt_trichotomy a.Name b.Name with h2 | h2 | h2
    · have hab : a < b := UnitOption.lt_iff.mpr (Or.inr ⟨h1, Or.inl h2⟩)
      rw [cmpCompare_of_lt h2, cmpCompare_of_lt hab]
      norm_num
    · rw [cmpCompare_of_eq h2]
      simp only [ne_eq, not_true_eq_false, if_false, not_false_eq_true]
      rcases lt_trichotomy a.Value b.Value with h3 | h3 | h3
      · have hab : a < b := UnitOption.lt_iff.mpr (Or.inr ⟨h1, Or.inr ⟨h2, h3⟩⟩)
        rw [cmpCompare_of_lt h3, cmpCompare_of_lt hab]
      · have hab : a = b := by
          cases a
          cases b
          simp_all
        rw [cmpCompare_of_eq h3, cmpCompare_of_eq hab]
      · have hba : b < a := UnitOption.lt_iff.mpr (Or.inr ⟨h1.symm, Or.inr ⟨h2.symm, h3⟩⟩)
        rw [cmpCompare_of_gt h3, cmpCompare_of_gt hba]
    · have hba : b < a := UnitOption.lt_iff.mpr (Or.inr ⟨h1.symm, Or.inl h2⟩)
      rw [cmpCompare_of_gt h2, cmpCompare_of_gt hba]
      norm_num
  · have hba : b < a := UnitOption.lt_iff.mpr (Or.inl h1)
    rw [cmpCompare_of_gt h1, cmpCompare_of_gt hba]
    norm_num

/-! ## The sorted-diff primitive `SliceDiffFunc` (util package) -/

/-- `SliceDiffFunc` from the util package: a linear merge-join of two
sorted slices producing the (add, keep, remove) partition.  Elements only
in `a` go to add, elements only in `b` go to remove, and on a comparison
tie the element of `b` goes to keep. -/
def SliceDiffFunc {α β : Type} (cmp : α → β → Int) :
    List α → List β → List α × List β × List β
  | [], bs => ([], [], bs)
  | a :: as, [] => (a :: as, [], [])
  | a :: as, b :: bs =>
    if cmp a b < 0 then
      let r := SliceDiffFunc cmp as (b :: bs)
      (a :: r.1, r.2.1, r.2.2)
    else if 0 < cmp a b then
      let r := SliceDiffFunc cmp (a :: as) bs
      (r.1, r.2.1, b :: r.2.2)
    else
      let r := SliceDiffFunc cmp as bs
      (r.1, b :: r.2.1, r.2.2)
termination_by as bs => as.length + bs.length
decreasing_by all_goals simp_arith

theorem sliceDiff_cons_lt {α β : Type} {cmp : α → β → Int} {a : α} {b : β}
    (as : List α) (bs : List β) (h : cmp a b < 0) :
    SliceDiffFunc cmp (a :: as) (b :: bs) =
      (a :: (SliceDiffFunc cmp as (b :: bs)).1, (SliceDiffFunc cmp as (b :: bs)).2) := by
  simp only [SliceDiffFunc]
  rw [if_pos h]

theorem sliceDiff_cons_gt {α β : Type} {cmp : α → β → Int} {a : α} {b : β}
    (as : List α) (bs : List β) (h : 0 < cmp a b) :
    SliceDiffFunc cmp (a :: as) (b :: bs) =
      ((SliceDiffFunc cmp (a :: as) bs).1, (SliceDiffFunc cmp (a :: as) bs).2.1,
        b :: (SliceDiffFunc cmp (a :: as) bs).2.2) := by
  simp only [SliceDiffFunc]
  rw [if_neg (by omega), if_pos h]

theorem sliceDiff_cons_eq {α β : Type} {cmp : α → β → Int} {a : α} {b : β}
    (as : List α) (bs : List β) (h : cmp a b = 0) :
    SliceDiffFunc cmp (a :: as) (b :: bs) =
      ((SliceDiffFunc cmp as bs).1, b :: (SliceDiffFunc cmp as bs).2.1,
        (SliceDiffFunc cmp as bs).2.2) := by
  simp only [SliceDiffFunc]
  rw [if_neg (by omega), if_neg (by omega)]

section SliceDiffLemmas

variable {α β : Type}

/-- add, keep and remove are sublists of the inputs they are drawn from. -/
theorem sliceDiff_sublists (cmp : α → β → Int) (as : List α) (bs : List β) :
    (SliceDiffFunc cmp as bs).1 <+ as ∧ (SliceDiffFunc cmp as bs).2.1 <+ bs ∧
      (SliceDiffFunc cmp as bs).2.2 <+ bs := by
  induction as, bs using SliceDiffFunc.induct cmp with
  | case1 bs => simp [SliceDiffFunc]
  | case2 a as => simp [SliceDiffFunc]
  | case3 a as b bs hc ih =>
      rw [sliceDiff_cons_lt as bs hc]
      exact ⟨ih.1.cons₂ a, ih.2.1, ih.2.2⟩
  | case4 a as b bs hc hc2 ih =>
      rw [sliceDiff_cons_gt as bs hc2]
      exact ⟨ih.1, ih.2.1.cons b, ih.2.2.cons₂ b⟩
  | case5 a as b bs hc hc2 ih =>
      have hz : cmp a b = 0 := by omega
      rw [sliceDiff_cons_eq as bs hz]
      exact ⟨ih.1.cons a, ih.2.1.cons₂ b, ih.2.2.cons b⟩

end SliceDiffLemmas

section SliceDiffOrderLemmas

variable {α : Type} [LinearOrder α]

/-- add and keep together are a permutation of the desired input. -/
theorem sliceDiff_append_perm (as bs : List α) :
    (SliceDiffFunc cmpCompare as bs).1 ++ (SliceDiffFunc cmpCompare as bs).2.1 ~ as := by
  induction as, bs using SliceDiffFunc.induct (cmpCompare : α → α → Int) with
  | case1 bs => simp [SliceDiffFunc]
  | case2 a as => simp [SliceDiffFunc]
  | case3 a as b bs hc ih =>
      rw [sliceDiff_cons_lt as bs hc]
      simpa using ih.cons a
  | case4 a as b bs hc hc2 ih =>
      rw [sliceDiff_cons_gt as bs hc2]
      exact ih
  | case5 a as b bs hc hc2 ih =>
      have hz : cmpCompare a b = 0 := by omega
      have hab : a = b := cmpCompare_eq_zero_iff.mp hz
      rw [sliceDiff_cons_eq as bs hz]
      subst hab
      exact List.perm_middle.trans (ih.cons a)

/-- Both diff inputs equal exactly when add and remove are both empty. -/
theorem sliceDiff_empty_iff (as bs : List α) :
    ((SliceDiffFunc cmpCompare as bs).1 = [] ∧ (SliceDiffFunc cmpCompare as bs).2.2 = []) ↔
      as = bs := by
  induction as, bs using SliceDiffFunc.induct (cmpCompare : α → α → Int) with
  | case1 bs =>
      cases bs with
      | nil => simp [SliceDiffFunc]
      | cons b bs => simp [SliceDiffFunc]
  | case2 a as => simp [SliceDiffFunc]
  | case3 a as b bs hc ih =>
      have hab : a < b := cmpCompare_lt_iff.mp hc
      rw [sliceDiff_cons_lt as bs hc]
      simp only [List.cons_ne_nil, false_and, false_iff, List.cons.injEq, not_and]
      intro he
      exact absurd he (ne_of_lt hab)
  | case4 a as b bs hc hc2 ih =>
      have hab : b < a := cmpCompare_pos_iff.mp hc2
      rw [sliceDiff_cons_gt as bs hc2]
      simp only [List.cons_ne_nil, and_false, false_iff, List.cons.injEq, not_and]
      intro he
      exact absurd he.symm (ne_of_lt hab)
  | case5 a as b bs hc hc2 ih =>
      have hz : cmpCompare a b = 0 := by omega
      have hab : a = b := cmpCompare_eq_zero_iff.mp hz
      rw [sliceDiff_cons_eq as bs hz]
      simpa [hab] using ih

/-- Projections of the three cons-cons diff steps. -/
theorem sliceDiff_lt_fst {a b : α} (as bs : List α) (h : cmpCompare a b < 0) :
    (SliceDiffFunc cmpCompare (a :: as) (b :: bs)).1 =
      a :: (SliceDiffFunc cmpCompare as (b :: bs)).1 := by
  rw [sliceDiff_cons_lt as bs h]

theorem sliceDiff_lt_keep {a b : α} (as bs : List α) (h : cmpCompare a b < 0) :
    (SliceDiffFunc cmpCompare (a :: as) (b :: bs)).2.1 =
      (SliceDiffFunc cmpCompare as (b :: bs)).2.1 := by
  rw [sliceDiff_cons_lt as bs h]

theorem sliceDiff_lt_rem {a b : α} (as bs : List α) (h : cmpCompare a b < 0) :
    (SliceDiffFunc cmpCompare (a :: as) (b :: bs)).2.2 =
      (SliceDiffFunc cmpCompare as (b :: bs)).2.2 := by
  rw [sliceDiff_cons_lt as bs h]

theorem sliceDiff_gt_fst {a b : α} (as bs : List α) (h : 0 < cmpCompare a b) :
    (SliceDiffFunc cmpCompare (a :: as) (b :: bs)).1 =
      (SliceDiffFunc cmpCompare (a :: as) bs).1 := by
  rw [sliceDiff_cons_gt as bs h]

theorem sliceDiff_gt_keep {a b : α} (as bs : List α) (h : 0 < cmpCompare a b) :
    (SliceDiffFunc cmpCompare (a :: as) (b :: bs)).2.1 =
      (SliceDiffFunc cmpCompare (a :: as) bs).2.1 := by
  rw [sliceDiff_cons_gt as bs h]

theorem sliceDiff_gt_rem {a b : α} (as bs : List α) (h : 0 < cmpCompare a b) :
    (SliceDiffFunc cmpCompare (a :: as) (b :: bs)).2.2 =
      b :: (SliceDiffFunc cmpCompare (a :: as) bs).2.2 := by
  rw [sliceDiff_cons_gt as bs h]

theorem sliceDiff_eq_fst {a b : α} (as bs : List α) (h : cmpCompare a b = 0) :
    (SliceDiffFunc cmpCompare (a :: as) (b :: bs)).1 =
      (SliceDiffFunc cmpCompare as bs).1 := by
  rw [sliceDiff_cons_eq as bs h]

theorem sliceDiff_eq_keep {a b : α} (as bs : List α) (h : cmpCompare a b = 0) :
    (SliceDiffFunc cmpCompare (a :: as) (b :: bs)).2.1 =
      b :: (SliceDiffFunc cmpCompare as bs).2.1 := by
  rw [sliceDiff_cons_eq as bs h]

theorem sliceDiff_eq_rem {a b : α} (as bs : List α) (h : cmpCompare a b = 0) :
    (SliceDiffFunc cmpCompare (a :: as) (b :: bs)).2.2 =
      (SliceDiffFunc cmpCompare as bs).2.2 := by
  rw [sliceDiff_cons_eq as bs h]

/-- Set-level characterization of the diff partition on strictly sorted
(duplicate-free) inputs: add holds the elements only in `as`, keep the
elements in both, remove the elements only in `bs`. -/
theorem sliceDiff_mem (as bs : List α) :
    as.Sorted (· < ·) → bs.Sorted (· < ·) → ∀ x : α,
      (x ∈ (SliceDiffFunc cmpCompare as bs).1 ↔ x ∈ as ∧ x ∉ bs) ∧
      (x ∈ (SliceDiffFunc cmpCompare as bs).2.1 ↔ x ∈ as ∧ x ∈ bs) ∧
      (x ∈ (SliceDiffFunc cmpCompare as bs).2.2 ↔ x ∈ bs ∧ x ∉ as) := by
  induction as, bs using SliceDiffFunc.induct (cmpCompare : α → α → Int) with
  | case1 bs =>
      intro _ _ x
      simp [SliceDiffFunc]
  | case2 a as =>
      intro _ _ x
      simp [SliceDiffFunc]
  | case3 a as b bs hc ih =>
      intro ha hb x
      have hab : a < b := cmpCompare_lt_iff.mp hc
      have hanb : a ∉ b :: bs := by
        intro hmem
        rcases List.mem_cons.mp hmem with he | hm
        · exact absurd he (ne_of_lt hab)
        · exact absurd hab (asymm (List.rel_of_sorted_cons hb a hm))
      obtain ⟨ihA, ihK, ihR⟩ := ih ha.of_cons hb x
      refine ⟨?_, ?_, ?_⟩
      · rw [sliceDiff_lt_fst as bs hc]
        constructor
        · intro hx
          rcases List.mem_cons.mp hx with rfl | hx
          · exact ⟨List.mem_cons_self x as, hanb⟩
          · obtain ⟨h1, h2⟩ := ihA.mp hx
            exact ⟨List.mem_cons_of_mem a h1, h2⟩
        · rintro ⟨h1, h2⟩
          rcases List.mem_cons.mp h1 with rfl | h1
          · exact List.mem_cons_self x _
          · exact List.mem_cons_of_mem a (ihA.mpr ⟨h1, h2⟩)
      · rw [sliceDiff_lt_keep as bs hc, ihK]
        constructor
        · rintro ⟨h1, h2⟩
          exact ⟨List.mem_cons_of_mem a h1, h2⟩
        · rintro ⟨h1, h2⟩
          rcases List.mem_cons.mp h1 with rfl | h1
          · exact absurd h2 hanb
          · exact ⟨h1, h2⟩
      · rw [sliceDiff_lt_rem as bs hc, ihR]
        constructor
        · rintro ⟨h1, h2⟩
          refine ⟨h1, fun hx => ?_⟩
          rcases List.mem_cons.mp hx with rfl | hx
          · exact hanb h1
          · exact h2 hx
        · rintro ⟨h1, h2⟩
          exact ⟨h1, fun hx => h2 (List.mem_cons_of_mem a hx)⟩
  | case4 a as b bs hc hc2 ih =>
      intro ha hb x
      have hab : b < a := cmpCompare_pos_iff.mp hc2
      have hbna : b ∉ a :: as := by
        intro hmem
        rcases List.mem_cons.mp hmem with he | hm
        · exact absurd he (ne_of_lt hab)
        · exact absurd hab (asymm (List.rel_of_sorted_cons ha b hm))
      obtain ⟨ihA, ihK, ihR⟩ := ih ha hb.of_cons x
      refine ⟨?_, ?_, ?_⟩
      · rw [sliceDiff_gt_fst as bs hc2, ihA]
        constructor
        · rintro ⟨h1, h2⟩
          refine ⟨h1, fun hx => ?_⟩
          rcases List.mem_cons.mp hx with rfl | hx
          · exact hbna h1
          · exact h2 hx
        · rintro ⟨h1, h2⟩
          exact ⟨h1, fun hx => h2 (List.mem_cons_of_mem b hx)⟩
      · rw [sliceDiff_gt_keep as bs hc2, ihK]
        constructor
        · rintro ⟨h1, h2⟩
          exact ⟨h1, List.mem_cons_of_mem b h2⟩
        · rintro ⟨h1, h2⟩
          rcases List.mem_cons.mp h2 with rfl | h2
          · exact absurd h1 hbna
          · exact ⟨h1, h2⟩
      · rw [sliceDiff_gt_rem as bs hc2]
        constructor
        · intro hx
          rcases List.mem_cons.mp hx with rfl | hx
          · exact ⟨List.mem_cons_self x bs, hbna⟩
          · obtain ⟨h1, h2⟩ := ihR.mp hx
            exact ⟨List.mem_cons_of_mem b h1, h2⟩
        · rintro ⟨h1, h2⟩
          rcases List.mem_cons.mp h1 with rfl | h1
          · exact List.mem_cons_self x _
          · exact List.mem_cons_of_mem b (ihR.mpr ⟨h1, h2⟩)
  | case5 a as b bs hc hc2 ih =>
      intro ha hb x
      have hz : cmpCompare a b = 0 := by omega
      have hab : a = b := cmpCompare_eq_zero_iff.mp hz
      obtain ⟨ihA, ihK, ihR⟩ := ih ha.of_cons hb.of_cons x
      have hfst := sliceDiff_eq_fst as bs hz
      have hkeep := sliceDiff_eq_keep as bs hz
      have hrem := sliceDiff_eq_rem as bs hz
      subst hab
      have hnas : a ∉ as := fun hm =>
        absurd (List.rel_of_sorted_cons ha a hm) (lt_irrefl a)
      have hnbs : a ∉ bs := fun hm =>
        absurd (List.rel_of_sorted_cons hb a hm) (lt_irrefl a)
      refine ⟨?_, ?_, ?_⟩
      · rw [hfst, ihA]
        constructor
        · rintro ⟨h1, h2⟩
          refine ⟨List.mem_cons_of_mem a h1, fun hx => ?_⟩
          rcases List.mem_cons.mp hx with rfl | hx
          · exact hnas h1
          · exact h2 hx
        · rintro ⟨h1, h2⟩
          rcases List.mem_cons.mp h1 with rfl | h1
          · exact absurd (List.mem_cons_self x bs) h2
          · exact ⟨h1, fun hx => h2 (List.mem_cons_of_mem a hx)⟩
      · rw [hkeep]
        constructor
        · intro hx
          rcases List.mem_cons.mp hx with rfl | hx
          · exact ⟨List.mem_cons_self x as, List.mem_cons_self x bs⟩
          · obtain ⟨h1, h2⟩ := ihK.mp hx
            exact ⟨List.mem_cons_of_mem a h1, List.mem_cons_of_mem a h2⟩
        · rintro ⟨h1, h2⟩
          by_cases hxa : x = a
          · subst hxa
            exact List.mem_cons_self x _
          · rcases List.mem_cons.mp h1 with rfl | h1
            · exact absurd rfl hxa
            · rcases List.mem_cons.mp h2 with rfl | h2
              · exact absurd rfl hxa
              · exact List.mem_cons_of_mem a (ihK.mpr ⟨h1, h2⟩)
      · rw [hrem, ihR]
        constructor
        · rintro ⟨h1, h2⟩
          refine ⟨List.mem_cons_of_mem a h1, fun hx => ?_⟩
          rcases List.mem_cons.mp hx with rfl | hx
          · exact hnbs h1
          · exact h2 hx
        · rintro ⟨h1, h2⟩
          rcases List.mem_cons.mp h1 with rfl | h1
          · exact absurd (List.mem_cons_self x as) h2
          · exact ⟨h1, fun hx => h2 (List.mem_cons_of_mem a hx)⟩

end SliceDiffOrderLemmas

/-! ## CompareOptions order facts and the unit-file reconciler (util package) -/

theorem compareOptions_lt_iff {a b : UnitOption} : CompareOptions a b < 0 ↔ a < b := by
  rw [compareOptions_eq_cmpCompare]
  exact cmpCompare_lt_iff

theorem cmpCompare_le_iff {α : Type} [LinearOrder α] {x y : α} :
    cmpCompare x y ≤ 0 ↔ x ≤ y := by
  rcases lt_trichotomy x y with h | h | h
  · rw [cmpCompare_of_lt h]
    constructor
    · intro _
      exact le_of_lt h
    · intro _
      norm_num
  · rw [cmpCompare_of_eq h]
    constructor
    · intro _
      exact le_of_eq h
    · intro _
      norm_num
  · rw [cmpCompare_of_gt h]
    constructor
    · intro hc
      norm_num at hc
    · intro hl
      exact absurd hl (not_le_of_lt h)

theorem compareOptions_le_iff {a b : UnitOption} : CompareOptions a b ≤ 0 ↔ a ≤ b := by
  rw [compareOptions_eq_cmpCompare]
  exact cmpCompare_le_iff

theorem compareOptions_zero_iff {a b : UnitOption} : CompareOptions a b = 0 ↔ a = b := by
  rw [compareOptions_eq_cmpCompare]
  exact cmpCompare_eq_zero_iff

/-- `SliceDiffFunc` with `CompareOptions` coincides with the generic
`cmp.Compare` of the lexicographic order on options. -/
theorem sliceDiff_compareOptions (as bs : List UnitOption) :
    SliceDiffFunc CompareOptions as bs = SliceDiffFunc cmpCompare as bs := by
  have h : CompareOptions = (fun a b : UnitOption => cmpCompare a b) :=
    funext fun a => funext fun b => compareOptions_eq_cmpCompare a b
  rw [h]

instance decCompareOptionsLe :
    DecidableRel (fun a b : UnitOption => CompareOptions a b ≤ 0) :=
  fun a b => inferInstanceAs (Decidable (CompareOptions a b ≤ 0))

instance : IsTotal UnitOption (fun a b => CompareOptions a b ≤ 0) :=
  ⟨fun a b => by
    simp only [compareOptions_le_iff]
    exact le_total a b⟩

instance : IsTrans UnitOption (fun a b => CompareOptions a b ≤ 0) :=
  ⟨fun a b c hab hbc => by
    simp only [compareOptions_le_iff] at hab hbc ⊢
    exact le_trans hab hbc⟩

/-- `slices.SortFunc(opts, CompareOptions)`: sorting by the comparator,
modelled with insertion sort (the source's unstable sort agrees with any
sort by this comparator because ties are structurally equal options). -/
def sortOpts (l : List UnitOption) : List UnitOption :=
  l.insertionSort (fun a b => CompareOptions a b ≤ 0)

theorem sortOpts_perm (l : List UnitOption) : sortOpts l ~ l :=
  List.perm_insertionSort _ l

theorem sortOpts_sorted (l : List UnitOption) : (sortOpts l).Sorted (· ≤ ·) := by
  have h := List.sorted_insertionSort (fun a b : UnitOption => CompareOptions a b ≤ 0) l
  exact h.imp fun {x y} hxy => compareOptions_le_iff.mp hxy

theorem sortOpts_of_sorted {l : List UnitOption} (h : l.Sorted (· ≤ ·)) :
    sortOpts l = l :=
  List.eq_of_perm_of_sorted (sortOpts_perm l) (sortOpts_sorted l) h

theorem sortOpts_idem (l : List UnitOption) : sortOpts (sortOpts l) = sortOpts l :=
  sortOpts_of_sorted (sortOpts_sorted l)

theorem mem_sortOpts {l : List UnitOption} {x : UnitOption} :
    x ∈ sortOpts l ↔ x ∈ l :=
  (sortOpts_perm l).mem_iff

/-- The reconciler's view of one unit file: `none` when the file does not
exist, `some opts` when it exists with the given serialized option list.
go-systemd's Serialize/Deserialize round-trip is modelled as the identity. -/
abbrev UnitFile := Option (List UnitOption)

/-- `ReadUnit`: a missing file reads as the empty option set (not an
error); a present file parses to its options, sorted on request. -/
def ReadUnit (file : UnitFile) (sorted : Bool) : List UnitOption :=
  match file with
  | none => []
  | some opts => if sorted then sortOpts opts else opts

/-- `WriteUnit`: an empty option set removes an existing file (and leaves
a missing file missing); a non-empty set creates/overwrites the file. -/
def WriteUnit (file : UnitFile) (opts : List UnitOption) : UnitFile :=
  if opts.length = 0 then
    match file with
    | some _ => none
    | none => none
  else some opts

/-- `EnsureUnit`: read the current options sorted, sort the desired
options, diff, and if the diff is trivial report unchanged without
writing, else write the sorted desired set and report changed.  The
per-option logging of the source is observational only and is omitted. -/
def EnsureUnit (file : UnitFile) (in_opts : List UnitOption) : Bool × UnitFile :=
  let unit_opts := ReadUnit file true
  let opts := sortOpts in_opts
  let d := SliceDiffFunc CompareOptions opts unit_opts
  if d.1.length = 0 ∧ d.2.2.length = 0 then (false, file)
  else (true, WriteUnit file opts)

/-- The diff is trivial exactly when the two sorted inputs are equal. -/
theorem sliceDiff_trivial_iff (as bs : List UnitOption) :
    ((SliceDiffFunc CompareOptions as bs).1.length = 0 ∧
      (SliceDiffFunc CompareOptions as bs).2.2.length = 0) ↔ as = bs := by
  rw [sliceDiff_compareOptions]
  rw [List.length_eq_zero, List.length_eq_zero]
  exact sliceDiff_empty_iff as bs

instance decCompareOptionsLt :
    DecidableRel (fun a b : UnitOption => CompareOptions a b < 0) :=
  fun a b => inferInstanceAs (Decidable (CompareOptions a b < 0))

theorem pairwise_lt_of_compareOptions {l : List UnitOption}
    (h : l.Pairwise (fun x y => CompareOptions x y < 0)) : l.Sorted (· < ·) :=
  h.imp fun {x y} hxy => compareOptions_lt_iff.mp hxy

/-- Executable strict comparison of options through character lists.
Lean's `String.lt` does not evaluate inside the kernel, so concrete
sortedness facts are checked on `toList` and transported. -/
def optLtB (a b : UnitOption) : Bool :=
  decide (a.Section.toList < b.Section.toList) ||
    (decide (a.Section.toList = b.Section.toList) &&
      (decide (a.Name.toList < b.Name.toList) ||
        (decide (a.Name.toList = b.Name.toList) &&
          decide (a.Value.toList < b.Value.toList))))

theorem compareOptions_lt_of_optLtB {a b : UnitOption} (h : optLtB a b = true) :
    CompareOptions a b < 0 := by
  rw [compareOptions_lt_iff, UnitOption.lt_iff]
  simp only [optLtB, Bool.or_eq_true, Bool.and_eq_true, decide_eq_true_eq] at h
  rcases h with h | ⟨h1, h⟩
  · exact Or.inl (String.lt_iff_toList_lt.mpr h)
  · refine Or.inr ⟨String.toList_inj.mp h1, ?_⟩
    rcases h with h | ⟨h2, h3⟩
    · exact Or.inl (String.lt_iff_toList_lt.mpr h)
    · exact Or.inr ⟨String.toList_inj.mp h2, String.lt_iff_toList_lt.mpr h3⟩

theorem pairwise_compareOptions_of_optLtB {l : List UnitOption}
    (h : l.Pairwise (fun x y => optLtB x y = true)) :
    l.Pairwise (fun x y => CompareOptions x y < 0) :=
  h.imp fun {x y} hxy => compareOptions_lt_of_optLtB hxy

/-- C1: for sorted duplicate-free option lists A (desired) and B (current),
`SliceDiffFunc` returns a partition with add = A − B, remove = B − A and
keep = A ∩ B as sets of triples, and the sorted merge of add and keep
reconstructs exactly A. -/
theorem C1_sliceDiff_partition (A B : List UnitOption)
    (hA : A.Pairwise (fun x y => CompareOptions x y < 0))
    (hB : B.Pairwise (fun x y => CompareOptions x y < 0)) :
    (∀ x, x ∈ (SliceDiffFunc CompareOptions A B).1 ↔ x ∈ A ∧ x ∉ B) ∧
    (∀ x, x ∈ (SliceDiffFunc CompareOptions A B).2.2 ↔ x ∈ B ∧ x ∉ A) ∧
    (∀ x, x ∈ (SliceDiffFunc CompareOptions A B).2.1 ↔ x ∈ A ∧ x ∈ B) ∧
    (SliceDiffFunc CompareOptions A B).1.merge (SliceDiffFunc CompareOptions A B).2.1
      (fun x y => decide (CompareOptions x y ≤ 0)) = A := by
  have hA2 : A.Sorted (· < ·) := pairwise_lt_of_compareOptions hA
  have hB2 : B.Sorted (· < ·) := pairwise_lt_of_compareOptions hB
  have hfun : (fun x y : UnitOption => decide (CompareOptions x y ≤ 0)) =
      (fun x y : UnitOption => decide (x ≤ y)) := by
    funext x y
    exact decide_eq_decide.mpr compareOptions_le_iff
  rw [sliceDiff_compareOptions, hfun]
  have hmem := sliceDiff_mem A B hA2 hB2
  refine ⟨fun x => (hmem x).1, fun x => (hmem x).2.2, fun x => (hmem x).2.1, ?_⟩
  have hsub := sliceDiff_sublists (cmpCompare : UnitOption → UnitOption → Int) A B
  have haddS : (SliceDiffFunc cmpCompare A B).1.Sorted (· ≤ ·) :=
    List.Sorted.le_of_lt (List.Pairwise.sublist hsub.1 hA2)
  have hkeepS : (SliceDiffFunc cmpCompare A B).2.1.Sorted (· ≤ ·) :=
    List.Sorted.le_of_lt (List.Pairwise.sublist hsub.2.1 hB2)
  have hperm :
      (SliceDiffFunc cmpCompare A B).1.merge (SliceDiffFunc cmpCompare A B).2.1
        (fun x y : UnitOption => decide (x ≤ y)) ~ A :=
    (List.perm_merge _ _ _).trans (sliceDiff_append_perm A B)
  exact List.eq_of_perm_of_sorted hperm (List.Sorted.merge haddS hkeepS) hA2.le_of_lt

/-- Fixed options used to instantiate claim theorems at concrete inputs. -/
def wOpt1 : UnitOption := ⟨"Exec", "Boot", "no"⟩

def wOpt2 : UnitOption := ⟨"Exec", "Boot", "yes"⟩

def wOpt3 : UnitOption := ⟨"Files", "Bind", "/data"⟩

theorem C1_sliceDiff_partition_witness :
    (∀ x, x ∈ (SliceDiffFunc CompareOptions [wOpt1, wOpt2] [wOpt2, wOpt3]).1 ↔
        x ∈ [wOpt1, wOpt2] ∧ x ∉ [wOpt2, wOpt3]) ∧
    (∀ x, x ∈ (SliceDiffFunc CompareOptions [wOpt1, wOpt2] [wOpt2, wOpt3]).2.2 ↔
        x ∈ [wOpt2, wOpt3] ∧ x ∉ [wOpt1, wOpt2]) ∧
    (∀ x, x ∈ (SliceDiffFunc CompareOptions [wOpt1, wOpt2] [wOpt2, wOpt3]).2.1 ↔
        x ∈ [wOpt1, wOpt2] ∧ x ∈ [wOpt2, wOpt3]) ∧
    (SliceDiffFunc CompareOptions [wOpt1, wOpt2] [wOpt2, wOpt3]).1.merge
      (SliceDiffFunc CompareOptions [wOpt1, wOpt2] [wOpt2, wOpt3]).2.1
      (fun x y => decide (CompareOptions x y ≤ 0)) = [wOpt1, wOpt2] :=
  C1_sliceDiff_partition [wOpt1, wOpt2] [wOpt2, wOpt3]
    (pairwise_compareOptions_of_optLtB (by decide))
    (pairwise_compareOptions_of_optLtB (by decide))

/-! ## EnsureUnit behaviour (claims C2, C3, C4) -/

theorem ensureUnit_eq_of_trivial {file : UnitFile} {in_opts : List UnitOption}
    (hc : sortOpts in_opts = ReadUnit file true) :
    EnsureUnit file in_opts = (false, file) := by
  simp only [EnsureUnit]
  rw [if_pos ((sliceDiff_trivial_iff _ _).mpr hc)]

theorem ensureUnit_eq_of_nontrivial {file : UnitFile} {in_opts : List UnitOption}
    (hc : sortOpts in_opts ≠ ReadUnit file true) :
    EnsureUnit file in_opts = (true, WriteUnit file (sortOpts in_opts)) := by
  simp only [EnsureUnit]
  rw [if_neg (fun h => hc ((sliceDiff_trivial_iff _ _).mp h))]

theorem readUnit_writeUnit (file : UnitFile) (l : List UnitOption) :
    ReadUnit (WriteUnit file (sortOpts l)) true = sortOpts l := by
  by_cases h : (sortOpts l).length = 0
  · have h2 : sortOpts l = [] := List.length_eq_zero.mp h
    rw [h2]
    cases file <;> rfl
  · simp only [WriteUnit, if_neg h, ReadUnit, if_pos rfl]
    exact sortOpts_idem l

/-- C2: running EnsureUnit twice with the same desired list reports
changed on the first run whenever the persisted set differs from the
desired set, leaves the file holding exactly the sorted desired list,
and reports unchanged on the second run. -/
theorem C2_ensureUnit_idempotent (file : UnitFile) (in_opts : List UnitOption) :
    ((¬ ∀ x, (x ∈ ReadUnit file true ↔ x ∈ in_opts)) →
        (EnsureUnit file in_opts).1 = true) ∧
    ReadUnit (EnsureUnit file in_opts).2 true = sortOpts in_opts ∧
    (EnsureUnit (EnsureUnit file in_opts).2 in_opts).1 = false := by
  by_cases hc : sortOpts in_opts = ReadUnit file true
  · rw [ensureUnit_eq_of_trivial hc]
    refine ⟨?_, ?_, ?_⟩
    · intro hdiff
      refine absurd (fun x => ?_) hdiff
      rw [← hc, mem_sortOpts]
    · exact hc.symm
    · rw [show ((false, file) : Bool × UnitFile).2 = file from rfl,
        ensureUnit_eq_of_trivial hc]
  · rw [ensureUnit_eq_of_nontrivial hc]
    refine ⟨fun _ => rfl, ?_, ?_⟩
    · exact readUnit_writeUnit file in_opts
    · have h2 : sortOpts in_opts =
          ReadUnit ((true, WriteUnit file (sortOpts in_opts)) : Bool × UnitFile).2 true :=
        (readUnit_writeUnit file in_opts).symm
      rw [ensureUnit_eq_of_trivial h2]

/-- C3: with an empty desired set, EnsureUnit deletes an existing
non-empty file and reports changed; against a missing file it reports
unchanged and leaves the file missing. -/
theorem C3_ensureUnit_empty_desired (l : List UnitOption) (h : l ≠ []) :
    EnsureUnit (some l) [] = (true, none) ∧ EnsureUnit none [] = (false, none) := by
  constructor
  · have hne : sortOpts [] ≠ ReadUnit (some l) true := by
      show ([] : List UnitOption) ≠ sortOpts l
      intro he
      have hp := sortOpts_perm l
      rw [← he] at hp
      exact h (List.length_eq_zero.mp hp.length_eq.symm)
    rw [ensureUnit_eq_of_nontrivial hne]
    rfl
  · exact ensureUnit_eq_of_trivial rfl

theorem C3_ensureUnit_empty_desired_witness :
    EnsureUnit (some [wOpt1]) [] = (true, none) ∧ EnsureUnit none [] = (false, none) :=
  C3_ensureUnit_empty_desired [wOpt1] (by decide)

/-- C4: when the computed diff has empty add and remove partitions,
EnsureUnit reports unchanged and leaves the file state exactly as it
was; and a missing file always reads as the empty option set. -/
theorem C4_ensureUnit_frame (file : UnitFile) (in_opts : List UnitOption)
    (hadd : (SliceDiffFunc CompareOptions (sortOpts in_opts) (ReadUnit file true)).1 = [])
    (hrem : (SliceDiffFunc CompareOptions (sortOpts in_opts) (ReadUnit file true)).2.2 = []) :
    EnsureUnit file in_opts = (false, file) ∧ ∀ b : Bool, ReadUnit none b = [] := by
  refine ⟨?_, fun b => rfl⟩
  apply ensureUnit_eq_of_trivial
  refine (sliceDiff_trivial_iff _ _).mp ⟨?_, ?_⟩
  · rw [hadd]
    rfl
  · rw [hrem]
    rfl

theorem C4_ensureUnit_frame_witness :
    EnsureUnit none [] = (false, none) ∧ ∀ b : Bool, ReadUnit none b = [] :=
  C4_ensureUnit_frame none []
    (by
      show (SliceDiffFunc CompareOptions [] []).1 = []
      simp [SliceDiffFunc])
    (by
      show (SliceDiffFunc CompareOptions [] []).2.2 = []
      simp [SliceDiffFunc])

/-! ## Template catalog (machineutil package) -/

/-- A template: a name and an integer version, standing for the image
`<name>-template_<version>`.  The source struct also carries a dbus
object and a manager capability; those are connection handles, not
catalog data, and are left out of the embedding. -/
structure Template where
  Name : String
  Version : Int
deriving DecidableEq, Repr

/-- `(*Template).Image`: the backing image name of a template. -/
def Template.Image (t : Template) : String :=
  t.Name ++ "-template_" ++ toString t.Version

/-- `(*Template).Get` with a possibly nil receiver: nil on a name
mismatch (or nil receiver), the template itself otherwise. -/
def Template.Get (t : Option Template) (name : String) : Option Template :=
  match t with
  | none => none
  | some tv => if name ≠ tv.Name then none else some tv

/-- `TemplateVersions.Get`: scan the group from its last element down and
return the first template whose name matches. -/
def TemplateVersions.Get (t : List Template) (name : String) : Option Template :=
  match t with
  | [] => none
  | tm :: rest =>
    match TemplateVersions.Get rest name with
    | some r => some r
    | none => Template.Get (some tm) name

/-- `TemplateVersions.Less`: order templates by name, then by version. -/
def TVLess (a b : Template) : Bool :=
  if a.Name < b.Name then true
  else if a.Name > b.Name then false
  else a.Version < b.Version

/-- The pairwise order `sort.Sort` establishes with `TVLess`: the
reflexive closure of Less, i.e. ascending by (name, version). -/
def TVLE (a b : Template) : Prop :=
  a.Name < b.Name ∨ (a.Name = b.Name ∧ a.Version ≤ b.Version)

instance : DecidableRel TVLE := fun a b =>
  inferInstanceAs (Decidable (a.Name < b.Name ∨ (a.Name = b.Name ∧ a.Version ≤ b.Version)))

/-- `TVLE a b` says exactly that `b` does not have to sort before `a`. -/
theorem tvle_iff_not_less {a b : Template} : TVLE a b ↔ TVLess b a = false := by
  unfold TVLE TVLess
  rcases lt_trichotomy a.Name b.Name with h | h | h
  · rw [if_neg (asymm h), if_pos h]
    exact iff_of_true (Or.inl h) rfl
  · rw [if_neg (by rw [h]; exact lt_irrefl _), if_neg (by rw [h]; exact lt_irrefl _)]
    constructor
    · intro hle
      rcases hle with hlt | ⟨_, hv⟩
      · exact absurd hlt (by rw [h]; exact lt_irrefl _)
      · simpa using not_lt_of_le hv
    · intro hd
      refine Or.inr ⟨h, ?_⟩
      simp only [decide_eq_false_iff_not] at hd
      exact le_of_not_lt hd
  · rw [if_pos h]
    constructor
    · intro hle
      rcases hle with hlt | ⟨he, _⟩
      · exact absurd hlt (asymm h)
      · exact absurd he.symm (ne_of_lt h)
    · intro hd
      exact absurd hd (by simp)

/-- Go map from template names to version groups, as an association
list; looking up an absent key yields the zero value, the empty group. -/
def mapGetTV (m : List (String × List Template)) (k : String) : List Template :=
  match m.find? (fun p => p.1 = k) with
  | some p => p.2
  | none => []

/-- The `Templates` catalog: the configured default name and the
per-name version groups. -/
structure Templates where
  Default : String
  Templates : List (String × List Template)

/-- `(*Templates).Get`: an empty name resolves the default name; the
lookup goes through the name's version group. -/
def Templates.Get (t : Machineutil.Templates) (name : String) : Option Template :=
  let name2 := if name = "" then t.Default else name
  TemplateVersions.Get (mapGetTV t.Templates name2) name2

/-- A group all of whose members carry the looked-up name resolves to
its last element. -/
theorem templateVersionsGet_eq_getLast {g : List Template} {n : String}
    (h : ∀ tm ∈ g, tm.Name = n) : TemplateVersions.Get g n = g.getLast? := by
  induction g with
  | nil => rfl
  | cons tm rest ih =>
      have hrest : ∀ t2 ∈ rest, t2.Name = n := fun t2 ht => h t2 (List.mem_cons_of_mem tm ht)
      have hg : TemplateVersions.Get rest n = rest.getLast? := ih hrest
      cases rest with
      | nil =>
          have hname : tm.Name = n := h tm (List.mem_cons_self tm [])
          show (if n ≠ tm.Name then none else some tm) = [tm].getLast?
          rw [if_neg (by simp [hname])]
          rfl
      | cons r rs =>
          show (match TemplateVersions.Get (r :: rs) n with
                | some r2 => some r2
                | none => Template.Get (some tm) n) = (tm :: r :: rs).getLast?
          rw [hg]
          have hsome : (r :: rs).getLast?.isSome := List.getLast?_isSome.mpr (by simp)
          obtain ⟨x, hx⟩ := Option.isSome_iff_exists.mp hsome
          rw [hx, List.getLast?_cons_cons, hx]

/-- Distinct keys make association-list entries with equal keys equal. -/
theorem assoc_key_unique {m : List (String × List Template)}
    (hk : (m.map Prod.fst).Nodup) {p q : String × List Template}
    (hp : p ∈ m) (hq : q ∈ m) (he : p.1 = q.1) : p = q := by
  induction m with
  | nil => cases hp
  | cons a m ih =>
      rw [List.map_cons, List.nodup_cons] at hk
      rcases List.mem_cons.mp hp with rfl | hp2
      · rcases List.mem_cons.mp hq with rfl | hq2
        · rfl
        · have hmem : q.1 ∈ m.map Prod.fst := List.mem_map_of_mem Prod.fst hq2
          rw [← he] at hmem
          exact absurd hmem hk.1
      · rcases List.mem_cons.mp hq with rfl | hq2
        · have hmem : p.1 ∈ m.map Prod.fst := List.mem_map_of_mem Prod.fst hp2
          rw [he] at hmem
          exact absurd hmem hk.1
        · exact ih hk.2 hp2 hq2

/-- In a group sorted ascending by (name, version) whose members all
carry the same name, the last element has the highest version. -/
theorem version_le_getLast {g : List Template} {n : String} {tmL : Template}
    (hs : g.Pairwise TVLE) (hnames : ∀ tm ∈ g, tm.Name = n)
    (hlast : g.getLast? = some tmL) :
    ∀ tm ∈ g, tm.Version ≤ tmL.Version := by
  induction g with
  | nil =>
      intro tm h
      cases h
  | cons a rest ih =>
      intro tm hm
      cases rest with
      | nil =>
          have h1 : a = tmL := by simpa using hlast
          rcases List.mem_cons.mp hm with rfl | h2
          · exact le_of_eq (by rw [h1])
          · cases h2
      | cons b bs =>
          have hlast2 : (b :: bs).getLast? = some tmL := by
            rw [List.getLast?_cons_cons] at hlast
            exact hlast
          rcases List.mem_cons.mp hm with rfl | h2
          · have htmLmem : tmL ∈ b :: bs := List.mem_of_mem_getLast? hlast2
            have hle : TVLE tm tmL := (List.pairwise_cons.mp hs).1 tmL htmLmem
            rcases hle with hlt | ⟨_, hv⟩
            · rw [hnames tm (List.mem_cons_self tm _),
                hnames tmL (List.mem_cons_of_mem tm htmLmem)] at hlt
              exact absurd hlt (lt_irrefl n)
            · exact hv
          · exact ih (List.pairwise_cons.mp hs).2
              (fun t2 ht => hnames t2 (List.mem_cons_of_mem a ht)) hlast2 tm h2

/-- C5: in a well-formed catalog (groups keyed by their members' name,
distinct keys, each group sorted ascending by (name, version)),
`Templates.Get` resolves the empty name to the default name and an
explicit name to itself, returns a highest-version template of that
name when one exists, and the distinct not-found result `none` exactly
when no template of that name exists. -/
theorem C5_templates_get (cat : Machineutil.Templates) (name : String)
    (hkeys : (cat.Templates.map Prod.fst).Nodup)
    (hnames : ∀ p ∈ cat.Templates, ∀ tm ∈ p.2, tm.Name = p.1)
    (hsorted : ∀ p ∈ cat.Templates, p.2.Pairwise TVLE) :
    (∀ tm, Templates.Get cat name = some tm →
        tm.Name = (if name = "" then cat.Default else name) ∧
        (∃ p ∈ cat.Templates, tm ∈ p.2) ∧
        (∀ p ∈ cat.Templates, ∀ tm2 ∈ p.2,
          tm2.Name = (if name = "" then cat.Default else name) →
            tm2.Version ≤ tm.Version)) ∧
    (Templates.Get cat name = none ↔
        ∀ p ∈ cat.Templates, ∀ tm2 ∈ p.2,
          tm2.Name ≠ (if name = "" then cat.Default else name)) := by
  set n := if name = "" then cat.Default else name with hn
  have hget : Templates.Get cat name = TemplateVersions.Get (mapGetTV cat.Templates n) n := by
    rw [Templates.Get, hn]
  cases hf : cat.Templates.find? (fun p => p.1 = n) with
  | none =>
      have hmap : mapGetTV cat.Templates n = [] := by
        unfold mapGetTV
        rw [hf]
      have hnone : Templates.Get cat name = none := by
        rw [hget, hmap]
        rfl
      have hnomatch : ∀ p ∈ cat.Templates, ∀ tm2 ∈ p.2, tm2.Name ≠ n := by
        intro p hp tm2 htm2 hname2
        have hkey : p.1 = n := (hnames p hp tm2 htm2).symm.trans hname2
        have := List.find?_eq_none.mp hf p hp
        simp [hkey] at this
      constructor
      · intro tm htm
        rw [hnone] at htm
        cases htm
      · rw [hnone]
        exact iff_of_true rfl hnomatch
  | some pg =>
      have hpgmem : pg ∈ cat.Templates := List.mem_of_find?_eq_some hf
      have hpgkey : pg.1 = n := by
        have := List.find?_some hf
        simpa using this
      have hmap : mapGetTV cat.Templates n = pg.2 := by
        unfold mapGetTV
        rw [hf]
      have hgnames : ∀ tm ∈ pg.2, tm.Name = n := fun tm htm =>
        (hnames pg hpgmem tm htm).trans hpgkey
      have hglast : Templates.Get cat name = pg.2.getLast? := by
        rw [hget, hmap]
        exact templateVersionsGet_eq_getLast hgnames
      have hunique : ∀ p ∈ cat.Templates, ∀ tm2 ∈ p.2, tm2.Name = n → tm2 ∈ pg.2 := by
        intro p hp tm2 htm2 hname2
        have hkey : p.1 = n := (hnames p hp tm2 htm2).symm.trans hname2
        have hpe : p = pg := assoc_key_unique hkeys hp hpgmem (hkey.trans hpgkey.symm)
        rw [← hpe]
        exact htm2
      constructor
      · intro tm htm
        rw [hglast] at htm
        refine ⟨?_, ⟨pg, hpgmem, List.mem_of_mem_getLast? htm⟩, ?_⟩
        · exact hgnames tm (List.mem_of_mem_getLast? htm)
        · intro p hp tm2 htm2 hname2
          exact version_le_getLast (hsorted pg hpgmem) hgnames htm tm2
            (hunique p hp tm2 htm2 hname2)
      · rw [hglast]
        constructor
        · intro hcontra p hp tm2 htm2 hname2
          have hmem2 : tm2 ∈ pg.2 := hunique p hp tm2 htm2 hname2
          have : pg.2 ≠ [] := fun he => by
            rw [he] at hmem2
            cases hmem2
          rw [List.getLast?_eq_getLast pg.2 this] at hcontra
          cases hcontra
        · intro hnomatch
          cases hlg : pg.2.getLast? with
          | none => rfl
          | some tmL =>
              have hmemL : tmL ∈ pg.2 := List.mem_of_mem_getLast? hlg
              exact absurd (hgnames tmL hmemL) (hnomatch pg hpgmem tmL hmemL)

/-- Executable form of `TVLE` through character lists (Lean's `String.lt`
does not evaluate in the kernel). -/
def TVLEB (a b : Template) : Bool :=
  decide (a.Name.toList < b.Name.toList) ||
    (decide (a.Name.toList = b.Name.toList) && decide (a.Version ≤ b.Version))

theorem tvle_of_tvleb {a b : Template} (h : TVLEB a b = true) : TVLE a b := by
  simp only [TVLEB, Bool.or_eq_true, Bool.and_eq_true, decide_eq_true_eq] at h
  rcases h with h | ⟨h1, h2⟩
  · exact Or.inl (String.lt_iff_toList_lt.mpr h)
  · exact Or.inr ⟨String.toList_inj.mp h1, h2⟩

theorem pairwise_tvle_of_tvleb {l : List Template}
    (h : l.Pairwise (fun x y => TVLEB x y = true)) : l.Pairwise TVLE :=
  h.imp fun {x y} hxy => tvle_of_tvleb hxy

/-- A concrete well-formed catalog used to instantiate C5. -/
def wCat : Machineutil.Templates :=
  ⟨"base", [("base", [⟨"base", 1⟩, ⟨"base", 2⟩]), ("other", [⟨"other", 7⟩])]⟩

theorem C5_templates_get_witness :
    (∀ tm, Templates.Get wCat "" = some tm →
        tm.Name = (if "" = "" then wCat.Default else "") ∧
        (∃ p ∈ wCat.Templates, tm ∈ p.2) ∧
        (∀ p ∈ wCat.Templates, ∀ tm2 ∈ p.2,
          tm2.Name = (if "" = "" then wCat.Default else "") →
            tm2.Version ≤ tm.Version)) ∧
    (Templates.Get wCat "" = none ↔
        ∀ p ∈ wCat.Templates, ∀ tm2 ∈ p.2,
          tm2.Name ≠ (if "" = "" then wCat.Default else "")) :=
  C5_templates_get wCat "" (by decide) (by decide)
    (by
      intro p hp
      apply pairwise_tvle_of_tvleb
      rcases List.mem_cons.mp hp with rfl | hp2
      · decide
      · rcases List.mem_cons.mp hp2 with rfl | hp3
        · decide
        · cases hp3)

/-! ## machined client (machinedutil.go) -/

/-- A machined image: name and dbus object path. -/
structure Image where
  Name : String
  Path : String
deriving DecidableEq, Repr

/-- A machine handle: name plus the dbus object path it was constructed
with.  The manager back-reference of the source is the ambient state. -/
structure Machine where
  Name : String
  objectPath : String
deriving DecidableEq, Repr

/-- The error outcomes the client distinguishes: the sentinels
ErrAlreadyExists and ErrNoSuchImage, and a failed CloneImage call. -/
inductive MUErr where
  | alreadyExists : MUErr
  | noSuchImage : MUErr
  | cloneFailed : MUErr
deriving DecidableEq, Repr

/-- Association-list lookup standing for a Go map read. -/
def lookup {β : Type} (m : List (String × β)) (k : String) : Option β :=
  (m.find? (fun p => p.1 = k)).map Prod.snd

/-- Association-list overwrite standing for a Go map write. -/
def mapInsert {β : Type} (m : List (String × β)) (k : String) (v : β) :
    List (String × β) :=
  match m with
  | [] => [(k, v)]
  | p :: rest => if p.1 = k then (k, v) :: rest else p :: mapInsert rest k v

theorem lookup_mapInsert_self {β : Type} (m : List (String × β)) (k : String) (v : β) :
    lookup (mapInsert m k v) k = some v := by
  induction m with
  | nil =>
      unfold mapInsert lookup
      rw [List.find?_cons_of_pos _ (by simp)]
      rfl
  | cons p rest ih =>
      unfold mapInsert
      split_ifs with hpk
      · unfold lookup
        rw [List.find?_cons_of_pos _ (by simp)]
        rfl
      · unfold lookup
        rw [List.find?_cons_of_neg _ (by simp [hpk])]
        exact ih

/-- `strings.Replace(s, pat, rep, 1)` on character lists. -/
def replaceFirst (pat rep : List Char) : List Char → List Char
  | [] => []
  | c :: rest =>
    if pat.isPrefixOf (c :: rest) then rep ++ (c :: rest).drop pat.length
    else c :: replaceFirst pat rep rest

/-- The machined client's run-scoped state: the bus-side image table
(name to object path, modelling the external machined service), the
machine-handle registry, and a log of the CloneImage RPCs issued. -/
structure MUState where
  images : List (String × String)
  machines : List (String × Machine)
  cloneCalls : List (String × String)
deriving DecidableEq, Repr

/-- machined's object path for an image (models the external bus). -/
def imageObjectPath (name : String) : String :=
  "/org/freedesktop/machine1/image/" ++ name

/-- `GetImage`: ask machined for the image's object path; `none` stands
for the bus's "No image … known" error. -/
def GetImage (s : MUState) (name : String) : Option Image :=
  (lookup s.images name).map (fun p => ⟨name, p⟩)

/-- `AddMachine`: construct the machine handle, its object path derived
from the image path by replacing "image" with "machine" once, and record
it in the registry before returning it. -/
def AddMachine (s : MUState) (image : Image) : Machine × MUState :=
  let machine : Machine :=
    ⟨image.Name, (replaceFirst "image".toList "machine".toList image.Path.toList).asString⟩
  (machine, { s with machines := mapInsert s.machines image.Name machine })

/-- `GetMachineFromImage`: return the cached handle when the name was
resolved earlier in the run, otherwise construct and register one. -/
def GetMachineFromImage (s : MUState) (image : Image) : Machine × MUState :=
  match lookup s.machines image.Name with
  | some res => (res, s)
  | none => AddMachine s image

/-- `GetMachine`: resolve an image by name, classifying the bus failure
as ErrNoSuchImage, then resolve the machine handle. -/
def GetMachine (s : MUState) (fqdn : String) :
    Option Machine × Option MUErr × MUState :=
  match GetImage s fqdn with
  | none => (none, some MUErr.noSuchImage, s)
  | some image =>
    let r := GetMachineFromImage s image
    (some r.1, none, r.2)

/-- The CloneImage RPC (models the external machined service): the call
is recorded in the log; it succeeds when the source image exists and the
destination does not, creating the destination image. -/
def CloneImage (s : MUState) (src dst : String) : Bool × MUState :=
  if (lookup s.images src).isSome && (lookup s.images dst).isNone then
    (true, { images := mapInsert s.images dst (imageObjectPath dst),
             machines := s.machines,
             cloneCalls := s.cloneCalls ++ [(src, dst)] })
  else (false, { s with cloneCalls := s.cloneCalls ++ [(src, dst)] })

/-- `Clone`: when the destination image already exists, return its
machine handle together with the sentinel ErrAlreadyExists; otherwise
request a clone of the source image and resolve the new machine. -/
def Clone (s : MUState) (src dst : String) :
    Option Machine × Option MUErr × MUState :=
  match GetImage s dst with
  | some image =>
    let r := GetMachineFromImage s image
    (some r.1, some MUErr.alreadyExists, r.2)
  | none =>
    let c := CloneImage s src dst
    if c.1 then GetMachine c.2 dst
    else (none, some MUErr.cloneFailed, c.2)

/-- `(*Template).Create`: clone the template's image under the fqdn. -/
def Template.Create (t : Template) (s : MUState) (fqdn : String) :
    Option Machine × Option MUErr × MUState :=
  Clone s (Template.Image t) fqdn

theorem getMachineFromImage_cloneCalls (s : MUState) (image : Image) :
    ((GetMachineFromImage s image).2).cloneCalls = s.cloneCalls := by
  unfold GetMachineFromImage
  cases lookup s.machines image.Name with
  | some m => rfl
  | none => rfl

theorem getMachine_cloneCalls (s : MUState) (fqdn : String) :
    ((GetMachine s fqdn).2.2).cloneCalls = s.cloneCalls := by
  unfold GetMachine
  cases GetImage s fqdn with
  | none => rfl
  | some image => exact getMachineFromImage_cloneCalls s image

theorem cloneImage_cloneCalls (s : MUState) (src dst : String) :
    ((CloneImage s src dst).2).cloneCalls = s.cloneCalls ++ [(src, dst)] := by
  unfold CloneImage
  split_ifs <;> rfl

/-- C6 (counterexample to "without error"): against a state in which the
target image exists, `Template.Create` returns the existing machine
handle AND the non-nil sentinel error ErrAlreadyExists, and issues no
clone call. -/
theorem C6_clone_already_exists_counterexample :
    GetImage ⟨[("host1", imageObjectPath "host1")], [], []⟩ "host1" =
      some ⟨"host1", imageObjectPath "host1"⟩ ∧
    (Template.Create ⟨"base", 2⟩ ⟨[("host1", imageObjectPath "host1")], [], []⟩
        "host1").1.isSome = true ∧
    (Template.Create ⟨"base", 2⟩ ⟨[("host1", imageObjectPath "host1")], [], []⟩
        "host1").2.1 = some MUErr.alreadyExists ∧
    (Template.Create ⟨"base", 2⟩ ⟨[("host1", imageObjectPath "host1")], [], []⟩
        "host1").2.1 ≠ none := by
  refine ⟨by decide, by decide, by decide, by decide⟩

/-- C6 (amended): when an image of the target name already exists,
Create returns the existing machine handle together with the sentinel
ErrAlreadyExists (treated by callers as "no creation steps", not a
failure) and requests no clone; only when no such image exists does it
issue a CloneImage request for the template's image. -/
theorem C6_clone_idempotent (s : MUState) (t : Template) (fqdn : String) :
    (∀ img, GetImage s fqdn = some img →
        Template.Create t s fqdn =
          (some (GetMachineFromImage s img).1, some MUErr.alreadyExists,
            (GetMachineFromImage s img).2) ∧
        ((Template.Create t s fqdn).2.2).cloneCalls = s.cloneCalls) ∧
    (GetImage s fqdn = none →
        ((Template.Create t s fqdn).2.2).cloneCalls =
          s.cloneCalls ++ [(Template.Image t, fqdn)]) := by
  constructor
  · intro img heq
    have h1 : Template.Create t s fqdn =
        (some (GetMachineFromImage s img).1, some MUErr.alreadyExists,
          (GetMachineFromImage s img).2) := by
      unfold Template.Create Clone
      rw [heq]
    refine ⟨h1, ?_⟩
    rw [h1]
    exact getMachineFromImage_cloneCalls s img
  · intro heq
    have h1 : Template.Create t s fqdn =
        (if (CloneImage s (Template.Image t) fqdn).1 then
          GetMachine (CloneImage s (Template.Image t) fqdn).2 fqdn
        else (none, some MUErr.cloneFailed, (CloneImage s (Template.Image t) fqdn).2)) := by
      unfold Template.Create Clone
      rw [heq]
    rw [h1]
    split_ifs with hc
    · rw [getMachine_cloneCalls]
      exact cloneImage_cloneCalls s (Template.Image t) fqdn
    · exact cloneImage_cloneCalls s (Template.Image t) fqdn

theorem C6_clone_idempotent_witness :
    (∀ img, GetImage ⟨[("host1", imageObjectPath "host1")], [], []⟩ "host1" = some img →
        Template.Create ⟨"base", 2⟩ ⟨[("host1", imageObjectPath "host1")], [], []⟩ "host1" =
          (some (GetMachineFromImage ⟨[("host1", imageObjectPath "host1")], [], []⟩ img).1,
            some MUErr.alreadyExists,
            (GetMachineFromImage ⟨[("host1", imageObjectPath "host1")], [], []⟩ img).2) ∧
        ((Template.Create ⟨"base", 2⟩ ⟨[("host1", imageObjectPath "host1")], [], []⟩
            "host1").2.2).cloneCalls =
          (⟨[("host1", imageObjectPath "host1")], [], []⟩ : MUState).cloneCalls) ∧
    (GetImage ⟨[("host1", imageObjectPath "host1")], [], []⟩ "host1" = none →
        ((Template.Create ⟨"base", 2⟩ ⟨[("host1", imageObjectPath "host1")], [], []⟩
            "host1").2.2).cloneCalls =
          (⟨[("host1", imageObjectPath "host1")], [], []⟩ : MUState).cloneCalls ++
            [(Template.Image ⟨"base", 2⟩, "host1")]) :=
  C6_clone_idempotent ⟨[("host1", imageObjectPath "host1")], [], []⟩ ⟨"base", 2⟩ "host1"

/-- C9: resolving a machine handle is memoized: after one resolution the
handle is registered in the run-scoped registry under the image name,
and a second resolution of the same image returns the identical handle
with the state unchanged. -/
theorem C9_machine_memoized (s : MUState) (image : Image) :
    lookup ((GetMachineFromImage s image).2).machines image.Name =
      some (GetMachineFromImage s image).1 ∧
    GetMachineFromImage ((GetMachineFromImage s image).2) image =
      GetMachineFromImage s image := by
  cases h : lookup s.machines image.Name with
  | some m =>
      have h1 : GetMachineFromImage s image = (m, s) := by
        unfold GetMachineFromImage
        rw [h]
      rw [h1]
      exact ⟨h, by
        unfold GetMachineFromImage
        rw [h]⟩
  | none =>
      have h1 : GetMachineFromImage s image = AddMachine s image := by
        unfold GetMachineFromImage
        rw [h]
      rw [h1]
      have h2 : lookup (AddMachine s image).2.machines image.Name =
          some (AddMachine s image).1 := by
        unfold AddMachine
        exact lookup_mapInsert_self s.machines image.Name _
      refine ⟨h2, ?_⟩
      unfold GetMachineFromImage
      rw [h2]

/-! ## ListTemplates (machinedutil.go) -/

/-- `strings.Cut(s, sep)` on character lists: split around the first
occurrence of `sep`, `none` when `sep` does not occur. -/
def cutList (pat : List Char) : List Char → Option (List Char × List Char)
  | [] => none
  | c :: rest =>
    if pat.isPrefixOf (c :: rest) then some ([], (c :: rest).drop pat.length)
    else
      match cutList pat rest with
      | some p => some (c :: p.1, p.2)
      | none => none

/-- `strings.Cut` on strings, found case only. -/
def cutString (s sep : String) : Option (String × String) :=
  (cutList sep.toList s.toList).map (fun p => (p.1.asString, p.2.asString))

/-- Value of a non-empty all-digit character list. -/
def digitsVal (cs : List Char) : Option Nat :=
  if cs = [] then none
  else if cs.all (fun c => c.isDigit) then
    some (cs.foldl (fun acc c => acc * 10 + (c.toNat - 48)) 0)
  else none

/-- `strconv.Atoi`: an optional sign followed by one or more digits.
Overflow of the 64-bit Go int is not modelled. -/
def atoi? (s : String) : Option Int :=
  match s.toList with
  | '+' :: rest => (digitsVal rest).map (fun n => (n : Int))
  | '-' :: rest => (digitsVal rest).map (fun n => -(n : Int))
  | cs => (digitsVal cs).map (fun n => (n : Int))

/-- The parse of one image name as a template image:
`<name>-template_<version>` with an integer version. -/
def templateParse (img : Image) : Option Template :=
  match cutString img.Name "-template_" with
  | none => none
  | some nv => (atoi? nv.2).map (fun ver => ⟨nv.1, ver⟩)

/-- `retval[name] = append(retval[name], tmpl)` on the association-list
map: append into the group keyed by `name`, creating it when absent. -/
def mapAppendTV (m : List (String × List Template)) (k : String) (tm : Template) :
    List (String × List Template) :=
  match m with
  | [] => [(k, [tm])]
  | p :: rest => if p.1 = k then (p.1, p.2 ++ [tm]) :: rest else p :: mapAppendTV rest k tm

/-- One iteration of the ListTemplates image loop. -/
def listTemplatesStep (m : List (String × List Template)) (image : Image) :
    List (String × List Template) :=
  match cutString image.Name "-template_" with
  | none => m
  | some nv =>
    match atoi? nv.2 with
    | none => m
    | some ver => mapAppendTV m nv.1 ⟨nv.1, ver⟩

/-- `sort.Sort` of one version group by `TemplateVersions.Less`,
modelled with insertion sort in the reflexive order `TVLE` (the sorted
arrangement is unique because templates comparing equal are equal). -/
def sortTV (g : List Template) : List Template :=
  g.insertionSort TVLE

/-- `ListTemplates` as a function of the bus's image listing: group the
parseable template images by name, then sort each group.  The source
also memoizes per-image template handles; the handles carry no catalog
data in this embedding, so the memo table is dropped. -/
def ListTemplates (images : List Image) (defaultTemplate : String) :
    Machineutil.Templates :=
  ⟨defaultTemplate,
    (images.foldl listTemplatesStep []).map (fun p => (p.1, sortTV p.2))⟩

theorem listTemplatesStep_eq (m : List (String × List Template)) (image : Image) :
    listTemplatesStep m image =
      match templateParse image with
      | none => m
      | some tm => mapAppendTV m tm.Name tm := by
  unfold listTemplatesStep templateParse
  cases cutString image.Name "-template_" with
  | none => rfl
  | some nv =>
      dsimp only
      cases atoi? nv.2 with
      | none => rfl
      | some ver => rfl

theorem foldl_filter_parseable (images : List Image) :
    ∀ m, images.foldl listTemplatesStep m =
      (images.filter (fun img => (templateParse img).isSome)).foldl listTemplatesStep m := by
  induction images with
  | nil =>
      intro m
      rfl
  | cons img rest ih =>
      intro m
      rw [List.foldl_cons]
      cases h : templateParse img with
      | none =>
          have hstep : listTemplatesStep m img = m := by
            rw [listTemplatesStep_eq, h]
          rw [hstep, List.filter_cons, if_neg (by simp [h])]
          exact ih m
      | some tm =>
          rw [List.filter_cons, if_pos (by simp [h]), List.foldl_cons]
          exact ih _

theorem mem_mapAppendTV {k : String} {tm : Template} :
    ∀ (m : List (String × List Template)), ∀ p ∈ mapAppendTV m k tm, ∀ t2 ∈ p.2,
      (∃ q ∈ m, t2 ∈ q.2) ∨ t2 = tm := by
  intro m
  induction m with
  | nil =>
      intro p hp t2 ht2
      rcases List.mem_cons.mp hp with rfl | h
      · simp only [List.mem_singleton] at ht2
        exact Or.inr ht2
      · cases h
  | cons q rest ih =>
      intro p hp t2 ht2
      unfold mapAppendTV at hp
      split_ifs at hp with hqk
      · rcases List.mem_cons.mp hp with rfl | hrest
        · rcases List.mem_append.mp ht2 with h2 | h2
          · exact Or.inl ⟨q, List.mem_cons_self q rest, h2⟩
          · simp only [List.mem_singleton] at h2
            exact Or.inr h2
        · exact Or.inl ⟨p, List.mem_cons_of_mem q hrest, ht2⟩
      · rcases List.mem_cons.mp hp with rfl | hrest
        · exact Or.inl ⟨p, List.mem_cons_self p rest, ht2⟩
        · rcases ih p hrest t2 ht2 with ⟨q2, hq2, hq3⟩ | he
          · exact Or.inl ⟨q2, List.mem_cons_of_mem q hq2, hq3⟩
          · exact Or.inr he

theorem foldl_mem_invariant (P : Template → Prop) :
    ∀ (images : List Image) (m : List (String × List Template)),
      (∀ p ∈ m, ∀ tm ∈ p.2, P tm) →
      (∀ img ∈ images, ∀ tm, templateParse img = some tm → P tm) →
      ∀ p ∈ images.foldl listTemplatesStep m, ∀ tm ∈ p.2, P tm := by
  intro images
  induction images with
  | nil =>
      intro m hm _ p hp
      exact hm p hp
  | cons img rest ih =>
      intro m hm himg
      rw [List.foldl_cons]
      apply ih
      · intro p hp tm htm
        rw [listTemplatesStep_eq] at hp
        cases h : templateParse img with
        | none =>
            rw [h] at hp
            exact hm p hp tm htm
        | some tmi =>
            rw [h] at hp
            rcases mem_mapAppendTV m p hp tm htm with ⟨q, hq, hq2⟩ | rfl
            · exact hm q hq tm hq2
            · exact himg img (List.mem_cons_self img rest) tm h
      · intro img2 h2 tm h3
        exact himg img2 (List.mem_cons_of_mem img h2) tm h3

theorem foldl_entry_invariant (Q : String × List Template → Prop)
    (hstep : ∀ m img, (∀ p ∈ m, Q p) → ∀ p ∈ listTemplatesStep m img, Q p) :
    ∀ (images : List Image) (m : List (String × List Template)),
      (∀ p ∈ m, Q p) → ∀ p ∈ images.foldl listTemplatesStep m, Q p := by
  intro images
  induction images with
  | nil =>
      intro m hm p hp
      exact hm p hp
  | cons img rest ih =>
      intro m hm
      rw [List.foldl_cons]
      exact ih _ (hstep m img hm)

theorem mapAppendTV_names {k : String} {tm : Template} (htm : tm.Name = k) :
    ∀ (m : List (String × List Template)),
      (∀ p ∈ m, ∀ t2 ∈ p.2, t2.Name = p.1) →
      ∀ p ∈ mapAppendTV m k tm, ∀ t2 ∈ p.2, t2.Name = p.1 := by
  intro m
  induction m with
  | nil =>
      intro _ p hp t2 ht2
      rcases List.mem_cons.mp hp with rfl | h
      · simp only [List.mem_singleton] at ht2
        rw [ht2]
        exact htm
      · cases h
  | cons q rest ih =>
      intro hm p hp t2 ht2
      unfold mapAppendTV at hp
      split_ifs at hp with hqk
      · rcases List.mem_cons.mp hp with rfl | hrest
        · rcases List.mem_append.mp ht2 with h2 | h2
          · exact hm q (List.mem_cons_self q rest) t2 h2
          · simp only [List.mem_singleton] at h2
            rw [h2, htm]
            exact hqk.symm
        · exact hm p (List.mem_cons_of_mem q hrest) t2 ht2
      · rcases List.mem_cons.mp hp with rfl | hrest
        · exact hm p (List.mem_cons_self p rest) t2 ht2
        · exact ih (fun p2 hp2 => hm p2 (List.mem_cons_of_mem q hp2)) p hrest t2 ht2

theorem mapAppendTV_nonempty {k : String} {tm : Template} :
    ∀ (m : List (String × List Template)),
      (∀ p ∈ m, p.2 ≠ []) → ∀ p ∈ mapAppendTV m k tm, p.2 ≠ [] := by
  intro m
  induction m with
  | nil =>
      intro _ p hp
      rcases List.mem_cons.mp hp with rfl | h
      · simp
      · cases h
  | cons q rest ih =>
      intro hm p hp
      unfold mapAppendTV at hp
      split_ifs at hp with hqk
      · rcases List.mem_cons.mp hp with rfl | hrest
        · simp
        · exact hm p (List.mem_cons_of_mem q hrest)
      · rcases List.mem_cons.mp hp with rfl | hrest
        · exact hm p (List.mem_cons_self p rest)
        · exact ih (fun p2 hp2 => hm p2 (List.mem_cons_of_mem q hp2)) p hrest

instance : IsTrans Template TVLE :=
  ⟨fun a b c hab hbc => by
    rcases hab with h1 | ⟨h1, h1v⟩
    · rcases hbc with h2 | ⟨h2, _⟩
      · exact Or.inl (lt_trans h1 h2)
      · exact Or.inl (h2 ▸ h1)
    · rcases hbc with h2 | ⟨h2, h2v⟩
      · exact Or.inl (h1 ▸ h2)
      · exact Or.inr ⟨h1.trans h2, le_trans h1v h2v⟩⟩

instance : IsTotal Template TVLE :=
  ⟨fun a b => by
    rcases lt_trichotomy a.Name b.Name with h | h | h
    · exact Or.inl (Or.inl h)
    · rcases le_total a.Version b.Version with hv | hv
      · exact Or.inl (Or.inr ⟨h, hv⟩)
      · exact Or.inr (Or.inr ⟨h.symm, hv⟩)
    · exact Or.inr (Or.inl h)⟩

theorem sortTV_perm (g : List Template) : sortTV g ~ g :=
  List.perm_insertionSort _ g

theorem sortTV_sorted (g : List Template) : (sortTV g).Pairwise TVLE :=
  List.sorted_insertionSort _ g

/-- C8: the catalog contains exactly what parses as
`<name>-template_<version>` with an integer version — an image whose
version suffix fails integer parsing is skipped and the listing
continues as if the image were absent — and every per-name group comes
out sorted with the highest version last. -/
theorem C8_listTemplates (images : List Image) (d : String) :
    ListTemplates images d =
      ListTemplates (images.filter (fun img => (templateParse img).isSome)) d ∧
    (∀ p ∈ (ListTemplates images d).Templates, ∀ tm ∈ p.2,
        ∃ img ∈ images, templateParse img = some tm) ∧
    (∀ p ∈ (ListTemplates images d).Templates,
        p.2.Pairwise TVLE ∧
        ∃ tmL, p.2.getLast? = some tmL ∧ ∀ tm ∈ p.2, tm.Version ≤ tmL.Version) := by
  refine ⟨?_, ?_, ?_⟩
  · unfold ListTemplates
    rw [foldl_filter_parseable images []]
  · intro p hp tm htm
    unfold ListTemplates at hp
    simp only [List.mem_map] at hp
    obtain ⟨q, hq, rfl⟩ := hp
    have htm2 : tm ∈ q.2 := (sortTV_perm q.2).mem_iff.mp htm
    exact foldl_mem_invariant (fun t => ∃ img ∈ images, templateParse img = some t)
      images [] (by intro p2 hp2; cases hp2)
      (fun img h t hp2 => ⟨img, h, hp2⟩) q hq tm htm2
  · intro p hp
    unfold ListTemplates at hp
    simp only [List.mem_map] at hp
    obtain ⟨q, hq, rfl⟩ := hp
    have hnames : ∀ t2 ∈ q.2, t2.Name = q.1 :=
      foldl_entry_invariant (fun e => ∀ t2 ∈ e.2, t2.Name = e.1)
        (by
          intro m img hm p2 hp2
          rw [listTemplatesStep_eq] at hp2
          cases h : templateParse img with
          | none =>
              rw [h] at hp2
              exact hm p2 hp2
          | some tmi =>
              rw [h] at hp2
              exact mapAppendTV_names rfl m hm p2 hp2)
        images [] (by intro p2 hp2; cases hp2) q hq
    have hne : q.2 ≠ [] :=
      foldl_entry_invariant (fun e => e.2 ≠ [])
        (by
          intro m img hm p2 hp2
          rw [listTemplatesStep_eq] at hp2
          cases h : templateParse img with
          | none =>
              rw [h] at hp2
              exact hm p2 hp2
          | some tmi =>
              rw [h] at hp2
              exact mapAppendTV_nonempty m hm p2 hp2)
        images [] (by intro p2 hp2; cases hp2) q hq
    have hsne : sortTV q.2 ≠ [] := by
      intro he
      have := (sortTV_perm q.2).length_eq
      rw [he] at this
      exact hne (List.length_eq_zero.mp this.symm)
    have hsnames : ∀ t2 ∈ sortTV q.2, t2.Name = q.1 := fun t2 ht =>
      hnames t2 ((sortTV_perm q.2).mem_iff.mp ht)
    refine ⟨sortTV_sorted q.2, (sortTV q.2).getLast hsne, ?_, ?_⟩
    · exact List.getLast?_eq_getLast _ hsne
    · exact version_le_getLast (sortTV_sorted q.2) hsnames
        (List.getLast?_eq_getLast _ hsne) 

/-! ## Address filtering and machine start/stop (machine part of machinedutil) -/

/-- A network address as net/netip models it: the invalid zero `Addr`,
an IPv4 address of four bytes, or an IPv6 address of sixteen bytes.
`GetAddresses` builds addresses from 4- or 16-byte slices, so the
4-in-6 mapped form does not arise. -/
inductive Addr where
  | invalid : Addr
  | v4 : Nat → Nat → Nat → Nat → Addr
  | v6 : List Nat → Addr
deriving DecidableEq, Repr

/-- `netip.Addr.IsValid`: everything but the zero Addr. -/
def Addr.IsValid : Addr → Bool
  | .invalid => false
  | _ => true

/-- `netip.Addr.IsUnspecified`: 0.0.0.0 or `::`. -/
def Addr.IsUnspecified : Addr → Bool
  | .v4 0 0 0 0 => true
  | .v6 bs => bs = List.replicate 16 0
  | _ => false

/-- `netip.Addr.IsLoopback`: 127.0.0.0/8 or `::1`. -/
def Addr.IsLoopback : Addr → Bool
  | .v4 b0 _ _ _ => b0 = 127
  | .v6 bs => bs = List.replicate 15 0 ++ [1]
  | .invalid => false

/-- `netip.Addr.IsLinkLocalUnicast`: 169.254.0.0/16 or fe80::/10. -/
def Addr.IsLinkLocalUnicast : Addr → Bool
  | .v4 b0 b1 _ _ => b0 = 169 && b1 = 254
  | .v6 (b0 :: b1 :: _) => b0 = 254 && (b1 &&& 192) = 128
  | _ => false

/-- `netip.Addr.IsLinkLocalMulticast`: 224.0.0.0/24 or ff02::/16. -/
def Addr.IsLinkLocalMulticast : Addr → Bool
  | .v4 b0 b1 b2 _ => b0 = 224 && b1 = 0 && b2 = 0
  | .v6 (b0 :: b1 :: _) => b0 = 255 && (b1 &&& 15) = 2
  | _ => false

/-- `netip.Addr.IsInterfaceLocalMulticast`: ff01::/16, IPv6 only. -/
def Addr.IsInterfaceLocalMulticast : Addr → Bool
  | .v6 (b0 :: b1 :: _) => b0 = 255 && (b1 &&& 15) = 1
  | _ => false

/-- `netip.Addr.IsMulticast`: 224.0.0.0/4 or ff00::/8. -/
def Addr.IsMulticast : Addr → Bool
  | .v4 b0 _ _ _ => (b0 &&& 240) = 224
  | .v6 (b0 :: _) => b0 = 255
  | _ => false

/-- The switch of `WaitForAddress`: an address is kept only when no
exclusion case fires. -/
def keepAddr (a : Addr) : Bool :=
  if !a.IsValid then false
  else if a.IsUnspecified then false
  else if a.IsLoopback then false
  else if a.IsLinkLocalUnicast then false
  else if a.IsLinkLocalMulticast then false
  else if a.IsInterfaceLocalMulticast then false
  else if a.IsMulticast then false
  else true

/-- `Machine.WaitForAddress` over the successive results of polling
`Addresses()` (the sleep between polls is timing, not modelled): filter
each poll and return the first non-empty filtered list.  `none` stands
for exhausting the supplied polls, where the source loops on. -/
def WaitForAddress : List (List Addr) → Option (List Addr)
  | [] => none
  | poll :: rest =>
    let result := poll.filter keepAddr
    if result.length > 0 then some result else WaitForAddress rest

theorem keepAddr_iff (a : Addr) :
    keepAddr a = true ↔
      (a.IsValid = true ∧ a.IsUnspecified = false ∧ a.IsLoopback = false ∧
        a.IsLinkLocalUnicast = false ∧ a.IsLinkLocalMulticast = false ∧
        a.IsInterfaceLocalMulticast = false ∧ a.IsMulticast = false) := by
  unfold keepAddr
  split_ifs with h1 h2 h3 h4 h5 h6 h7 <;> simp_all

/-- C7: each poll keeps exactly the addresses that are valid and not
unspecified, loopback, link-local unicast, link-local multicast,
interface-local multicast, or multicast, in order; the wait returns the
filtered list of the first poll on which it is non-empty; and from
{127.0.0.1, fe80::1, 203.0.113.5} exactly {203.0.113.5} is returned. -/
theorem C7_waitForAddress_filter (poll : List Addr) (rest : List (List Addr)) :
    (∀ a, a ∈ poll.filter keepAddr ↔
        a ∈ poll ∧ (a.IsValid = true ∧ a.IsUnspecified = false ∧ a.IsLoopback = false ∧
          a.IsLinkLocalUnicast = false ∧ a.IsLinkLocalMulticast = false ∧
          a.IsInterfaceLocalMulticast = false ∧ a.IsMulticast = false)) ∧
    (poll.filter keepAddr ≠ [] →
        WaitForAddress (poll :: rest) = some (poll.filter keepAddr)) ∧
    WaitForAddress [[Addr.v4 127 0 0 1,
        Addr.v6 [254, 128, 0, 0, 0, 0, 0, 0, 0, 0, 0, 0, 0, 0, 0, 1],
        Addr.v4 203 0 113 5]] = some [Addr.v4 203 0 113 5] := by
  refine ⟨?_, ?_, by decide⟩
  · intro a
    rw [List.mem_filter]
    exact and_congr_right fun _ => keepAddr_iff a
  · intro hne
    show (if (poll.filter keepAddr).length > 0 then some (poll.filter keepAddr)
          else WaitForAddress rest) = some (poll.filter keepAddr)
    rw [if_pos (List.length_pos.mpr hne)]

/-- `Machine.Running`: a failed run-state query (`none`) reads as not
running; a reply counts as running exactly when it is "running". -/
def Running (status : Option String) : Bool :=
  match status with
  | none => false
  | some result => result = "running"

/-- Consume one status-query result from a poll stream; an exhausted
stream models a bus that no longer answers, i.e. a failed query. -/
def queryStatus : List (Option String) → Option String × List (Option String)
  | [] => (none, [])
  | st :: rest => (st, rest)

/-- `Machine.Stop` over a stream of status-query results: a machine not
reported running (including a failed query) returns success at once
with no StopUnit call; else the stop job is issued and waited on, and
the trailing not-running poll loop runs (its only effect is time).
Result: (was a stop job issued, did Stop return nil). -/
def MachineStop (stopUnitOk jobWaitOk : Bool) (seq : List (Option String)) :
    Bool × Bool :=
  let q := queryStatus seq
  if Running q.1 then
    if !stopUnitOk then (true, false)
    else if !jobWaitOk then (true, false)
    else (true, true)
  else (false, true)

/-- The poll loop ending `Machine.Start`: poll Status until it reports
"running" (success) or a query fails (error). -/
def startPollLoop : List (Option String) → Bool
  | [] => false
  | none :: _ => false
  | some r :: rest => if r = "running" then true else startPollLoop rest

/-- `Machine.Start` over a stream of status-query results: a machine
already reported running returns success with no StartUnit call; else a
start job is issued, waited on, and the unit polled until running.
Result: (was a start job issued, did Start return nil). -/
def MachineStart (startUnitOk jobWaitOk : Bool) (seq : List (Option String)) :
    Bool × Bool :=
  let q := queryStatus seq
  if Running q.1 then (false, true)
  else
    if !startUnitOk then (true, false)
    else if !jobWaitOk then (true, false)
    else (true, startPollLoop q.2)

/-- C10: a failed run-state query makes Running report false; in that
situation Stop succeeds immediately without issuing a stop job, while
Start goes on to issue a start job. -/
theorem C10_running_error_swallowed (rest : List (Option String))
    (stopUnitOk jobWaitOk startUnitOk jobWaitOk2 : Bool) :
    Running none = false ∧
    MachineStop stopUnitOk jobWaitOk (none :: rest) = (false, true) ∧
    (MachineStart startUnitOk jobWaitOk2 (none :: rest)).1 = true := by
  refine ⟨rfl, rfl, ?_⟩
  cases startUnitOk <;> cases jobWaitOk2 <;> rfl

end Machineutil
